import Mathlib

/-!
Verification of the shortest-path engine in `src/src/dijkstra.cxx`.

The C++ code is a templated `Dijkstra<T>` class storing a dense cost matrix
(`vector<vector<T>>`) and its row count, with one operation `from_vertex`
computing single-source distances, plus a private `min_distance` selection
scan.  We embed the code shallowly:

* edge weights are `WithTop ℤ` — an integer value or the positive-infinity
  sentinel `⊤` (the code uses `numeric_limits<float>::infinity()`; the
  arithmetic the code performs on these values — addition where
  `⊤ + x = ⊤`, linear-order comparison where `x ≤ ⊤` always holds and
  `⊤ < ⊤` never does — coincides with the IEEE behaviour on the values the
  algorithm manipulates, and `WithTop ℤ` models it exactly);
* vectors are lists; an out-of-bounds `operator[]` access, and the use of
  `min_index` when `min_distance` never assigned it, are C++ undefined
  behaviour and are modelled as `.error .undefinedBehavior`;
* the constructor and `from_vertex` perform no input validation in the
  source, so their embeddings never produce `.error .outOfRange` or
  `.error .invalidGraph`; those constructors exist in the error type only
  to state the spec's error-handling claims.
-/

namespace ATria

/-- Edge weights and distances: an integer value or the positive-infinity
sentinel `⊤` (the code's `numeric_limits<float>::infinity()`). -/
abbrev EV : Type := WithTop ℤ

/-- A dense cost matrix, `vector<vector<T>>` in the source. -/
abbrev Matrix : Type := List (List EV)

/-- Error conditions of the spec's taxonomy, plus `undefinedBehavior` for
executions in which the C++ source performs an out-of-bounds vector access
or reads an uninitialized variable. -/
inductive DijkstraError : Type
  | invalidGraph
  | outOfRange
  | undefinedBehavior
deriving DecidableEq

/-- The engine state: the stored matrix and the recorded size, the two data
members of the C++ `Dijkstra` class. -/
structure Dijkstra : Type where
  graph : Matrix
  size : Nat
deriving DecidableEq

/-- The constructor `Dijkstra(const Matrix<T> g) { graph = g; size = g.size(); }`:
it copies the matrix and records the row count, performing no validation. -/
def Dijkstra.make (g : Matrix) : Dijkstra :=
  { graph := g, size := g.length }

/-- The constructor viewed as a fallible operation, to state the spec's
claim that construction can fail: as written it always succeeds. -/
def Dijkstra.tryMake (g : Matrix) : Except DijkstraError Dijkstra :=
  .ok (Dijkstra.make g)

/-- One scan step of `Dijkstra::min_distance`:
`if (is_processed[v] == false && dist[v] <= min) { min = dist[v]; min_index = v; }`.
The accumulator holds the running `(min, min_index)`; `min_index` is `none`
while the C++ variable is still uninitialized.  Inside `from_vertex` both
lists always have length `size`, so the `getD` defaults are never consulted. -/
def minScanStep (dist : List EV) (is_processed : List Bool) (acc : EV × Option Nat)
    (v : Nat) : EV × Option Nat :=
  if is_processed.getD v false = false ∧ dist.getD v ⊤ ≤ acc.1 then
    (dist.getD v ⊤, some v)
  else acc

/-- The private method `Dijkstra::min_distance`: scan `v = 0, …, size-1`
starting from `min = ∞` and an uninitialized `min_index` (`none`), updating
both whenever the candidate is unprocessed and its distance is `<=` the
running minimum; return the final `min_index`. -/
def min_distance (size : Nat) (dist : List EV) (is_processed : List Bool) : Option Nat :=
  ((List.range size).foldl (minScanStep dist is_processed) (⊤, none)).2

/-- One iteration `v` of the relaxation loop of `Dijkstra::from_vertex` for
the selected vertex `u`:
`if (!is_processed[v] && graph[u][v] && dist[u] != ∞ && dist[u] + graph[u][v] < dist[v]) dist[v] = dist[u] + graph[u][v];`.
The `&&` short-circuits, so `graph[u]` is only read when `is_processed[v]`
is false; an out-of-bounds row or column access is undefined behaviour.
`dist` and `is_processed` always have length `size` at every call site, so
their `getD` defaults are never consulted. -/
def relaxStep (graph : Matrix) (u : Nat) (is_processed : List Bool) (dist : List EV)
    (v : Nat) : Except DijkstraError (List EV) :=
  if is_processed.getD v false = true then .ok dist
  else if hu : u < graph.length then
    if hv : v < (graph.get ⟨u, hu⟩).length then
      if (graph.get ⟨u, hu⟩).get ⟨v, hv⟩ ≠ 0 ∧ dist.getD u ⊤ ≠ ⊤ ∧
          dist.getD u ⊤ + (graph.get ⟨u, hu⟩).get ⟨v, hv⟩ < dist.getD v ⊤ then
        .ok (dist.set v (dist.getD u ⊤ + (graph.get ⟨u, hu⟩).get ⟨v, hv⟩))
      else .ok dist
    else .error .undefinedBehavior
  else .error .undefinedBehavior

/-- One iteration of the main loop of `Dijkstra::from_vertex`: select `u`
with `min_distance`, mark it processed, then relax every vertex.  If
`min_distance` never assigned `min_index`, the C++ returns an uninitialized
value and indexes with it — undefined behaviour. -/
def loopStep (graph : Matrix) (size : Nat) (st : List EV × List Bool) :
    Except DijkstraError (List EV × List Bool) :=
  match min_distance size st.1 st.2 with
  | none => .error .undefinedBehavior
  | some u =>
    let is_processed := st.2.set u true
    ((List.range size).foldlM (relaxStep graph u is_processed) st.1).map
      fun dist => (dist, is_processed)

/-- The body of `Dijkstra::from_vertex`, also returning the final
`is_processed` array.  It initializes every distance to `∞` and every mark
to `false`, performs the unchecked write `dist[source] = 0` — an
out-of-bounds store (undefined behaviour) whenever `source` is outside
`[0, size)`, there being no range check in the source — and then runs the
main loop `size - 1` times. -/
def Dijkstra.from_vertexFull (d : Dijkstra) (source : Int) :
    Except DijkstraError (List EV × List Bool) :=
  let dist : List EV := List.replicate d.size ⊤
  let is_processed : List Bool := List.replicate d.size false
  if 0 ≤ source ∧ source.toNat < d.size then
    (List.range (d.size - 1)).foldlM (fun st _ => loopStep d.graph d.size st)
      (dist.set source.toNat 0, is_processed)
  else .error .undefinedBehavior

/-- The public method `Dijkstra::from_vertex`: only the distance vector is
returned; the `is_processed` array is discarded. -/
def Dijkstra.from_vertex (d : Dijkstra) (source : Int) : Except DijkstraError (List EV) :=
  (d.from_vertexFull source).map Prod.fst

/-- The member-call view of `from_vertex`: the method body assigns no data
member of the class, so the engine after the call is returned unchanged
alongside the result. -/
def Dijkstra.from_vertexCall (d : Dijkstra) (source : Int) :
    Except DijkstraError (List EV) × Dijkstra :=
  (d.from_vertex source, d)

/-- The `(u, v)` entry of the cost matrix; out-of-range indices give the
no-edge value `0` (theorem statements only use it in range). -/
def entry (g : Matrix) (u v : Nat) : EV :=
  (g.getD u []).getD v 0

/-- The matrix is square: each row's length equals the row count. -/
def Square (g : Matrix) : Prop :=
  ∀ row ∈ g, row.length = g.length

instance (g : Matrix) : Decidable (Square g) := by
  unfold Square; infer_instance

/-- All matrix entries are non-negative (`⊤` counts as non-negative). -/
def Nonneg (g : Matrix) : Prop :=
  ∀ row ∈ g, ∀ w ∈ row, (0 : EV) ≤ w

instance (g : Matrix) : Decidable (Nonneg g) := by
  unfold Nonneg; infer_instance

/-- The vertex sequence `p` is a path from `s` to `v`: it starts at `s`,
ends at `v`, stays inside `[0, n)`, and each consecutive pair is joined by
a nonzero matrix entry (a zero entry means "no edge").  A one-element
sequence is the trivial path from a vertex to itself. -/
def IsPath (g : Matrix) (n : Nat) (s v : Nat) (p : List Nat) : Prop :=
  p.head? = some s ∧ p.getLast? = some v ∧ (∀ x ∈ p, x < n) ∧
    p.Chain' (fun a b => entry g a b ≠ 0)

/-- The summed edge weights along a vertex sequence. -/
def pathCost (g : Matrix) : List Nat → EV
  | a :: b :: rest => entry g a b + pathCost g (b :: rest)
  | _ => 0

/-- The pointwise effect of one full relaxation pass from `u` on the entry
of vertex `v` (with `is_processed` already updated for `u`). -/
def relaxedAt (g : Matrix) (u : Nat) (is_processed : List Bool) (dist : List EV)
    (v : Nat) : EV :=
  if is_processed.getD v false = false ∧ entry g u v ≠ 0 ∧ dist.getD u ⊤ ≠ ⊤ ∧
      dist.getD u ⊤ + entry g u v < dist.getD v ⊤ then
    dist.getD u ⊤ + entry g u v
  else dist.getD v ⊤

instance {ε α : Type} [DecidableEq ε] [DecidableEq α] : DecidableEq (Except ε α) := fun a b =>
  match a, b with
  | .ok x, .ok y =>
    if h : x = y then .isTrue (by rw [h]) else .isFalse (fun hc => h (Except.ok.inj hc))
  | .error x, .error y =>
    if h : x = y then .isTrue (by rw [h]) else .isFalse (fun hc => h (Except.error.inj hc))
  | .ok _, .error _ => .isFalse (fun hc => Except.noConfusion hc)
  | .error _, .ok _ => .isFalse (fun hc => Except.noConfusion hc)

/-! ### Basic facts about list indexing, updating and counting -/

theorem getD_lt {α : Type} {l : List α} {n : Nat} (h : n < l.length) (d : α) :
    l.getD n d = l.get ⟨n, h⟩ := by
  induction l generalizing n with
  | nil => simp at h
  | cons x t ih =>
    cases n with
    | zero => rfl
    | succ m => simpa using ih (by simpa using h)

theorem getD_ge {α : Type} {l : List α} {n : Nat} (h : l.length ≤ n) (d : α) :
    l.getD n d = d := by
  induction l generalizing n with
  | nil => cases n <;> rfl
  | cons x t ih =>
    cases n with
    | zero => simp at h
    | succ m => simpa using ih (n := m) (by simpa using h)

theorem getD_set_self {α : Type} {l : List α} {n : Nat} (h : n < l.length) (a d : α) :
    (l.set n a).getD n d = a := by
  induction l generalizing n with
  | nil => simp at h
  | cons x t ih =>
    cases n with
    | zero => rfl
    | succ m => simpa using ih (n := m) (by simpa using h)

theorem getD_set_ne {α : Type} {l : List α} {m n : Nat} (h : m ≠ n) (a d : α) :
    (l.set m a).getD n d = l.getD n d := by
  induction l generalizing m n with
  | nil => rfl
  | cons x t ih =>
    cases m with
    | zero =>
      cases n with
      | zero => exact absurd rfl h
      | succ k => rfl
    | succ j =>
      cases n with
      | zero => rfl
      | succ k => simpa using ih (m := j) (n := k) (fun hc => h (by rw [hc]))

theorem getD_replicate {α : Type} {n i : Nat} (h : i < n) (a d : α) :
    (List.replicate n a).getD i d = a := by
  induction n generalizing i with
  | zero => simp at h
  | succ m ih =>
    cases i with
    | zero => rfl
    | succ j => simpa [List.replicate_succ] using ih (i := j) (by omega)

theorem getD_replicate_self {α : Type} (n i : Nat) (a : α) :
    (List.replicate n a).getD i a = a := by
  rcases Nat.lt_or_ge i n with h | h
  · exact getD_replicate h a a
  · rw [getD_ge (by simpa using h)]

theorem length_set_eq {α : Type} (l : List α) (n : Nat) (a : α) :
    (l.set n a).length = l.length :=
  List.length_set l n a

theorem count_true_replicate_false (n : Nat) :
    (List.replicate n false).count true = 0 := by
  induction n with
  | zero => rfl
  | succ m ih => simpa [List.replicate_succ, List.count_cons] using ih

theorem count_true_set_true {l : List Bool} {u : Nat} (hu : u < l.length)
    (h : l.getD u false = false) :
    (l.set u true).count true = l.count true + 1 := by
  induction l generalizing u with
  | nil => simp at hu
  | cons x t ih =>
    cases u with
    | zero =>
      simp only [List.getD_cons_zero] at h
      subst h
      simp [List.count_cons]
    | succ j =>
      have hrec := ih (u := j) (by simpa using hu) (by simpa using h)
      rw [List.set_cons_succ]
      simp only [List.count_cons, hrec]
      omega

theorem exists_false_of_count {l : List Bool} (h : l.count true < l.length) :
    ∃ v, v < l.length ∧ l.getD v false = false := by
  induction l with
  | nil => simp at h
  | cons x t ih =>
    cases x with
    | false => exact ⟨0, by simp, rfl⟩
    | true =>
      have ht : t.count true < t.length := by
        simpa [List.count_cons] using h
      obtain ⟨v, hv, hf⟩ := ih ht
      exact ⟨v + 1, by simpa using hv, by simpa using hf⟩

theorem all_true_of_count {l : List Bool} (h : l.count true = l.length) :
    ∀ i, i < l.length → l.getD i false = true := by
  induction l with
  | nil => simp
  | cons x t ih =>
    cases x with
    | false =>
      exfalso
      have := List.count_le_length (a := true) (l := t)
      simp [List.count_cons] at h
      omega
    | true =>
      intro i hi
      cases i with
      | zero => rfl
      | succ j =>
        have := ih (by simpa [List.count_cons] using h)
        exact this j (by simpa using hi)

theorem false_index_unique {l : List Bool} (h : l.length = l.count true + 1)
    {a b : Nat} (ha : a < l.length) (hb : b < l.length)
    (hfa : l.getD a false = false) (hfb : l.getD b false = false) : a = b := by
  induction l generalizing a b with
  | nil => simp at ha
  | cons x t ih =>
    cases x with
    | false =>
      have ht : t.count true = t.length := by
        simp [List.count_cons] at h
        have := List.count_le_length (a := true) (l := t)
        omega
      cases a with
      | zero =>
        cases b with
        | zero => rfl
        | succ j =>
          have := all_true_of_count ht j (by simpa using hb)
          simp only [List.getD_cons_succ] at hfb
          rw [hfb] at this
          cases this
      | succ i =>
        have := all_true_of_count ht i (by simpa using ha)
        simp only [List.getD_cons_succ] at hfa
        rw [hfa] at this
        cases this
    | true =>
      cases a with
      | zero => cases hfa
      | succ i =>
        cases b with
        | zero => cases hfb
        | succ j =>
          have hrec : t.length = t.count true + 1 := by
            simpa [List.count_cons] using h
          have := ih hrec (by simpa using ha) (by simpa using hb)
            (by simpa using hfa) (by simpa using hfb)
          omega

/-! ### The selection scan of `min_distance` -/

theorem minScanStep_eq (dist : List EV) (proc : List Bool) (acc : EV × Option Nat) (v : Nat) :
    minScanStep dist proc acc v =
      if proc.getD v false = false ∧ dist.getD v ⊤ ≤ acc.1 then (dist.getD v ⊤, some v)
      else acc :=
  rfl

theorem minScan_spec (dist : List EV) (proc : List Bool) :
    ∀ n : Nat,
      ((List.range n).foldl (minScanStep dist proc) (⊤, none) = (⊤, none) ∧
        ∀ v, v < n → proc.getD v false ≠ false) ∨
      (∃ u, (List.range n).foldl (minScanStep dist proc) (⊤, none) =
          (dist.getD u ⊤, some u) ∧ u < n ∧ proc.getD u false = false ∧
          ∀ w, w < n → proc.getD w false = false →
            dist.getD u ⊤ ≤ dist.getD w ⊤ ∧
              (dist.getD w ⊤ = dist.getD u ⊤ → w ≤ u)) := by
  intro n
  induction n with
  | zero => exact Or.inl ⟨rfl, fun v hv => by omega⟩
  | succ m ih =>
    rw [List.range_succ, List.foldl_append, List.foldl_cons, List.foldl_nil]
    rcases ih with ⟨hacc, hnone⟩ | ⟨u, hacc, hu, hpu, hmin⟩
    · rw [hacc]
      cases hm : proc.getD m false with
      | false =>
        right
        refine ⟨m, ?_, by omega, hm, ?_⟩
        · rw [minScanStep_eq, if_pos ⟨hm, le_top⟩]
        · intro w hw hpw
          rcases Nat.lt_or_ge w m with hlt | hge
          · exact absurd hpw (hnone w hlt)
          · have hwm : w = m := by omega
            subst hwm
            exact ⟨le_refl _, fun _ => le_refl _⟩
      | true =>
        left
        refine ⟨?_, fun v hv hpv => ?_⟩
        · rw [minScanStep_eq, if_neg (fun hc => by rw [hm] at hc; exact absurd hc.1 (by simp))]
        · rcases Nat.lt_or_ge v m with hlt | hge
          · exact hnone v hlt hpv
          · have hvm : v = m := by omega
            subst hvm
            rw [hm] at hpv
            cases hpv
    · rw [hacc]
      cases hm : proc.getD m false with
      | false =>
        by_cases hle : dist.getD m ⊤ ≤ dist.getD u ⊤
        · right
          refine ⟨m, ?_, by omega, hm, ?_⟩
          · rw [minScanStep_eq, if_pos ⟨hm, hle⟩]
          · intro w hw hpw
            rcases Nat.lt_or_ge w m with hlt | hge
            · exact ⟨le_trans hle (hmin w hlt hpw).1, fun _ => by omega⟩
            · have hwm : w = m := by omega
              subst hwm
              exact ⟨le_refl _, fun _ => le_refl _⟩
        · right
          refine ⟨u, ?_, by omega, hpu, ?_⟩
          · rw [minScanStep_eq, if_neg (fun hc => hle hc.2)]
          · intro w hw hpw
            rcases Nat.lt_or_ge w m with hlt | hge
            · exact hmin w hlt hpw
            · have hwm : w = m := by omega
              subst hwm
              exact ⟨le_of_not_le hle, fun heq => absurd (le_of_eq heq) hle⟩
      | true =>
        right
        refine ⟨u, ?_, by omega, hpu, ?_⟩
        · rw [minScanStep_eq, if_neg (fun hc => by rw [hm] at hc; exact absurd hc.1 (by simp))]
        · intro w hw hpw
          rcases Nat.lt_or_ge w m with hlt | hge
          · exact hmin w hlt hpw
          · have hwm : w = m := by omega
            subst hwm
            rw [hm] at hpw
            cases hpw

theorem min_distance_some {size : Nat} {dist : List EV} {proc : List Bool} {u : Nat}
    (h : min_distance size dist proc = some u) :
    u < size ∧ proc.getD u false = false ∧
      ∀ w, w < size → proc.getD w false = false →
        dist.getD u ⊤ ≤ dist.getD w ⊤ ∧ (dist.getD w ⊤ = dist.getD u ⊤ → w ≤ u) := by
  rcases minScan_spec dist proc size with ⟨hacc, _⟩ | ⟨u', hacc, hu, hpu, hmin⟩
  · rw [min_distance, hacc] at h
    cases h
  · rw [min_distance, hacc] at h
    simp only [Option.some.injEq] at h
    subst h
    exact ⟨hu, hpu, hmin⟩

theorem min_distance_isSome {size : Nat} (dist : List EV) {proc : List Bool}
    (h : ∃ v, v < size ∧ proc.getD v false = false) :
    ∃ u, min_distance size dist proc = some u := by
  obtain ⟨v, hv, hpv⟩ := h
  rcases minScan_spec dist proc size with ⟨_, hnone⟩ | ⟨u, hacc, _, _, _⟩
  · exact absurd hpv (hnone v hv)
  · exact ⟨u, by rw [min_distance, hacc]⟩

/-! ### Matrix entries and paths -/

theorem entry_eq_get {g : Matrix} {u v : Nat} (hu : u < g.length)
    (hv : v < (g.get ⟨u, hu⟩).length) :
    entry g u v = (g.get ⟨u, hu⟩).get ⟨v, hv⟩ := by
  rw [entry, getD_lt hu, getD_lt hv]

theorem row_length {g : Matrix} (hsq : Square g) {u : Nat} (hu : u < g.length) :
    (g.get ⟨u, hu⟩).length = g.length :=
  hsq _ (g.get_mem u hu)

theorem entry_nonneg {g : Matrix} (hnn : Nonneg g) (u v : Nat) : 0 ≤ entry g u v := by
  rw [entry]
  rcases Nat.lt_or_ge u g.length with hu | hu
  · rw [getD_lt hu]
    rcases Nat.lt_or_ge v (g.get ⟨u, hu⟩).length with hv | hv
    · rw [getD_lt hv]
      exact hnn _ (g.get_mem u hu) _ ((g.get ⟨u, hu⟩).get_mem v hv)
    · rw [getD_ge hv]
  · rw [getD_ge hu, getD_ge (by simp)]

theorem pathCost_cons_cons (g : Matrix) (a b : Nat) (t : List Nat) :
    pathCost g (a :: b :: t) = entry g a b + pathCost g (b :: t) :=
  rfl

theorem pathCost_nonneg {g : Matrix} (hnn : Nonneg g) (p : List Nat) :
    0 ≤ pathCost g p := by
  match p with
  | [] => exact le_refl 0
  | [a] => exact le_refl 0
  | a :: b :: t =>
    rw [pathCost_cons_cons]
    exact add_nonneg (entry_nonneg hnn a b) (pathCost_nonneg hnn (b :: t))

theorem mem_of_getLast?_eq {l : List Nat} {a : Nat} (h : l.getLast? = some a) : a ∈ l := by
  induction l with
  | nil => cases h
  | cons x t ih =>
    cases t with
    | nil =>
      rw [List.getLast?_singleton] at h
      cases h
      exact List.mem_singleton_self _
    | cons y t' =>
      rw [List.getLast?_cons_cons] at h
      exact List.mem_cons_of_mem _ (ih h)

theorem pathCost_snoc {g : Matrix} {q : List Nat} {w : Nat} (hw : q.getLast? = some w)
    (a : Nat) :
    pathCost g (q ++ [a]) = pathCost g q + entry g w a := by
  induction q with
  | nil => cases hw
  | cons x t ih =>
    cases t with
    | nil =>
      rw [List.getLast?_singleton] at hw
      cases hw
      show pathCost g [w, a] = pathCost g [w] + entry g w a
      rw [pathCost_cons_cons]
      show entry g w a + 0 = 0 + entry g w a
      rw [add_zero, zero_add]
    | cons y t' =>
      rw [List.getLast?_cons_cons] at hw
      show pathCost g (x :: y :: (t' ++ [a])) = pathCost g (x :: y :: t') + entry g w a
      rw [pathCost_cons_cons, pathCost_cons_cons]
      have hrec := ih hw
      rw [List.cons_append] at hrec
      rw [hrec, add_assoc]

theorem isPath_not_nil {g : Matrix} {n s v : Nat} : ¬ IsPath g n s v [] :=
  fun h => by cases h.1

theorem isPath_singleton {g : Matrix} {n s v a : Nat} (h : IsPath g n s v [a]) :
    a = s ∧ a = v ∧ s < n := by
  obtain ⟨h1, h2, h3, _⟩ := h
  rw [List.head?_cons] at h1
  rw [List.getLast?_singleton] at h2
  cases h1
  cases h2
  exact ⟨rfl, rfl, h3 _ (List.mem_singleton_self _)⟩

theorem isPath_refl {g : Matrix} {n s : Nat} (hs : s < n) : IsPath g n s s [s] :=
  ⟨rfl, List.getLast?_singleton s, by simpa using hs, List.chain'_singleton s⟩

theorem isPath_snoc_intro {g : Matrix} {n s u v : Nat} {q : List Nat}
    (h : IsPath g n s u q) (he : entry g u v ≠ 0) (hv : v < n) :
    IsPath g n s v (q ++ [v]) := by
  obtain ⟨h1, h2, h3, h4⟩ := h
  have hq : q ≠ [] := fun hq => by subst hq; cases h1
  refine ⟨?_, List.getLast?_concat q, ?_, ?_⟩
  · cases q with
    | nil => exact absurd rfl hq
    | cons x t => simpa using h1
  · intro x hx
    rcases List.mem_append.mp hx with hx | hx
    · exact h3 x hx
    · rw [List.mem_singleton.mp hx]
      exact hv
  · refine List.chain'_append.mpr ⟨h4, List.chain'_singleton v, ?_⟩
    intro x hx y hy
    rw [h2] at hx
    cases hx
    rw [List.head?_cons] at hy
    cases hy
    exact he

theorem isPath_snoc_elim {g : Matrix} {n s v a : Nat} {q : List Nat} (hq : q ≠ [])
    (h : IsPath g n s v (q ++ [a])) :
    a = v ∧ ∃ w, q.getLast? = some w ∧ IsPath g n s w q ∧ entry g w a ≠ 0 := by
  obtain ⟨h1, h2, h3, h4⟩ := h
  rw [List.getLast?_concat] at h2
  have hav : a = v := by cases h2; rfl
  obtain ⟨hc1, hc2, hlink⟩ := List.chain'_append.mp h4
  have hw : q.getLast? = some (q.getLast hq) := List.getLast?_eq_getLast q hq
  refine ⟨hav, q.getLast hq, hw, ⟨?_, hw, ?_, hc1⟩, ?_⟩
  · cases q with
    | nil => exact absurd rfl hq
    | cons x t => simpa using h1
  · exact fun x hx => h3 x (List.mem_append_left _ hx)
  · exact hlink _ hw a rfl

/-! ### The relaxation pass -/

theorem relaxStep_proc {g : Matrix} {u : Nat} {proc : List Bool} {dist : List EV} {v : Nat}
    (h : proc.getD v false = true) :
    relaxStep g u proc dist v = .ok dist := by
  rw [relaxStep, if_pos h]

theorem relaxStep_unproc {g : Matrix} {u : Nat} {proc : List Bool} {dist : List EV} {v : Nat}
    (h : proc.getD v false = false) (hu : u < g.length)
    (hv : v < (g.get ⟨u, hu⟩).length) :
    relaxStep g u proc dist v =
      if entry g u v ≠ 0 ∧ dist.getD u ⊤ ≠ ⊤ ∧
          dist.getD u ⊤ + entry g u v < dist.getD v ⊤ then
        .ok (dist.set v (dist.getD u ⊤ + entry g u v))
      else .ok dist := by
  rw [relaxStep, if_neg (fun hc => by rw [h] at hc; cases hc), dif_pos hu, dif_pos hv,
    entry_eq_get hu hv]

theorem relaxedAt_le (g : Matrix) (u : Nat) (proc : List Bool) (dist : List EV) (v : Nat) :
    relaxedAt g u proc dist v ≤ dist.getD v ⊤ := by
  rw [relaxedAt]
  split
  case isTrue h => exact le_of_lt h.2.2.2
  case isFalse => exact le_refl _

theorem relaxedAt_of_proc {proc : List Bool} {v : Nat} (g : Matrix) (u : Nat) (dist : List EV)
    (h : proc.getD v false = true) :
    relaxedAt g u proc dist v = dist.getD v ⊤ := by
  rw [relaxedAt, if_neg]
  intro hc
  rw [h] at hc
  cases hc.1

theorem relaxedAt_le_add {g : Matrix} {u : Nat} {proc : List Bool} {dist : List EV} {v : Nat}
    (h1 : proc.getD v false = false) (h2 : entry g u v ≠ 0) :
    relaxedAt g u proc dist v ≤ dist.getD u ⊤ + entry g u v := by
  rw [relaxedAt]
  split
  case isTrue => exact le_refl _
  case isFalse h =>
    by_cases ht : dist.getD u ⊤ = ⊤
    · rw [ht, top_add]
      exact le_top
    · exact not_lt.mp (fun hlt => h ⟨h1, h2, ht, hlt⟩)

theorem relaxedAt_cases (g : Matrix) (u : Nat) (proc : List Bool) (dist : List EV) (v : Nat) :
    relaxedAt g u proc dist v = dist.getD v ⊤ ∨
      (relaxedAt g u proc dist v = dist.getD u ⊤ + entry g u v ∧ entry g u v ≠ 0 ∧
        dist.getD u ⊤ ≠ ⊤) := by
  rw [relaxedAt]
  split
  case isTrue h => exact Or.inr ⟨rfl, h.2.1, h.2.2.1⟩
  case isFalse => exact Or.inl rfl

theorem relax_fold_spec {g : Matrix} {u : Nat} {proc : List Bool} {dist : List EV}
    (hsq : Square g) (hu : u < g.length) (hpu : proc.getD u false = true)
    (hd : dist.length = g.length) :
    ∀ n, n ≤ g.length →
      ∃ l, (List.range n).foldlM (relaxStep g u proc) dist = .ok l ∧
        l.length = g.length ∧
        (∀ v, v < n → l.getD v ⊤ = relaxedAt g u proc dist v) ∧
        (∀ v, n ≤ v → l.getD v ⊤ = dist.getD v ⊤) := by
  intro n hn
  induction n with
  | zero => exact ⟨dist, rfl, hd, fun v hv => by omega, fun v _ => rfl⟩
  | succ m ih =>
    obtain ⟨l, hfold, hlen, hlt, hge⟩ := ih (by omega)
    have hm : m < g.length := by omega
    have hlu : l.getD u ⊤ = dist.getD u ⊤ := by
      rcases Nat.lt_or_ge u m with hum | hum
      · rw [hlt u hum, relaxedAt_of_proc g u dist hpu]
      · exact hge u hum
    have hlm : l.getD m ⊤ = dist.getD m ⊤ := hge m (le_refl m)
    have hstep : (List.range (m + 1)).foldlM (relaxStep g u proc) dist =
        relaxStep g u proc l m := by
      rw [List.range_succ, List.foldlM_append, hfold]
      show (relaxStep g u proc l m >>= fun b => pure b) = relaxStep g u proc l m
      exact bind_pure _
    cases hpm : proc.getD m false with
    | true =>
      refine ⟨l, by rw [hstep, relaxStep_proc hpm], hlen, ?_, ?_⟩
      · intro v hv
        rcases Nat.lt_or_ge v m with hvm | hvm
        · exact hlt v hvm
        · have hvm' : v = m := by omega
          subst hvm'
          rw [relaxedAt_of_proc g u dist hpm]
          exact hlm
      · intro v hv
        exact hge v (by omega)
    | false =>
      have hrow : m < (g.get ⟨u, hu⟩).length := by
        rw [row_length hsq hu]
        exact hm
      rw [hstep, relaxStep_unproc hpm hu hrow, hlu, hlm]
      by_cases hc : entry g u m ≠ 0 ∧ dist.getD u ⊤ ≠ ⊤ ∧
          dist.getD u ⊤ + entry g u m < dist.getD m ⊤
      · refine ⟨l.set m (dist.getD u ⊤ + entry g u m), by rw [if_pos hc], ?_, ?_, ?_⟩
        · rw [length_set_eq]
          exact hlen
        · intro v hv
          rcases Nat.lt_or_ge v m with hvm | hvm
          · rw [getD_set_ne (by omega), hlt v hvm]
          · have hvm' : v = m := by omega
            subst hvm'
            rw [getD_set_self (by rw [hlen]; exact hm), relaxedAt, if_pos ⟨hpm, hc⟩]
        · intro v hv
          rw [getD_set_ne (by omega), hge v (by omega)]
      · refine ⟨l, by rw [if_neg hc], hlen, ?_, fun v hv => hge v (by omega)⟩
        intro v hv
        rcases Nat.lt_or_ge v m with hvm | hvm
        · exact hlt v hvm
        · have hvm' : v = m := by omega
          subst hvm'
          rw [relaxedAt, if_neg (fun hcc => hc ⟨hcc.2.1, hcc.2.2.1, hcc.2.2.2⟩)]
          exact hlm

/-! ### Loop invariants -/

/-- Structural invariant of the main loop, maintained for every matrix:
lengths are stable, `k` vertices are processed, every finite tentative
distance is the cost of an actual path (soundness), and the source's
tentative distance never exceeds `0`. -/
structure Inv (g : Matrix) (s k : Nat) (dist : List EV) (proc : List Bool) : Prop where
  lenD : dist.length = g.length
  lenP : proc.length = g.length
  cnt : proc.count true = k
  sound : ∀ v, v < g.length → dist.getD v ⊤ ≠ ⊤ →
    ∃ p, IsPath g g.length s v p ∧ pathCost g p = dist.getD v ⊤
  srcLe : dist.getD s ⊤ ≤ 0

/-- Greedy invariant of the main loop, maintained when all weights are
non-negative: processed vertices carry a lower bound for every path cost,
every out-edge of a processed vertex has been relaxed, and processed
tentative distances never exceed unprocessed ones. -/
structure InvG (g : Matrix) (s : Nat) (dist : List EV) (proc : List Bool) : Prop where
  opt : ∀ v, v < g.length → proc.getD v false = true →
    ∀ p, IsPath g g.length s v p → dist.getD v ⊤ ≤ pathCost g p
  edge : ∀ u, u < g.length → proc.getD u false = true →
    ∀ v, v < g.length → entry g u v ≠ 0 → dist.getD v ⊤ ≤ dist.getD u ⊤ + entry g u v
  mono : ∀ u v, u < g.length → v < g.length → proc.getD u false = true →
    proc.getD v false = false → dist.getD u ⊤ ≤ dist.getD v ⊤

/-- Any path to any vertex is either lower-bounded by the endpoint's
tentative distance, or passes through an unprocessed vertex whose tentative
distance lower-bounds the path cost. -/
theorem path_bound {g : Matrix} {s : Nat} {dist : List EV} {proc : List Bool}
    (hnn : Nonneg g) (hG : InvG g s dist proc) (hsrc : dist.getD s ⊤ ≤ 0) :
    ∀ p v, IsPath g g.length s v p →
      (∃ z, z ∈ p ∧ proc.getD z false = false ∧ dist.getD z ⊤ ≤ pathCost g p) ∨
      dist.getD v ⊤ ≤ pathCost g p := by
  intro p
  induction p using List.reverseRecOn with
  | nil => exact fun v h => absurd h isPath_not_nil
  | append_singleton q a ihq =>
    intro v hp
    by_cases hqe : q = []
    · subst hqe
      obtain ⟨has, hav, hsn⟩ := isPath_singleton (by simpa using hp)
      subst has
      cases hpa : proc.getD a false with
      | false =>
        left
        refine ⟨a, by simp, hpa, ?_⟩
        show dist.getD a ⊤ ≤ pathCost g [a]
        exact hsrc
      | true =>
        right
        rw [← hav]
        show dist.getD a ⊤ ≤ pathCost g [a]
        exact hsrc
    · have hqne : q ≠ [] := hqe
      obtain ⟨hav, w, hw, hpathq, he⟩ := isPath_snoc_elim hqne hp
      have hwn : w < g.length := hpathq.2.2.1 w (mem_of_getLast?_eq hw)
      have hvn : v < g.length := hp.2.2.1 v (by rw [← hav]; exact List.mem_append_right q (List.mem_singleton_self a))
      have hcost : pathCost g (q ++ [a]) = pathCost g q + entry g w a :=
        pathCost_snoc hw a
      have hqle : pathCost g q ≤ pathCost g (q ++ [a]) := by
        rw [hcost]
        exact le_add_of_nonneg_right (entry_nonneg hnn w a)
      rcases ihq w hpathq with ⟨z, hzq, hzp, hzle⟩ | hwle
      · exact Or.inl ⟨z, List.mem_append_left _ hzq, hzp, le_trans hzle hqle⟩
      · cases hpw : proc.getD w false with
        | true =>
          right
          have h1 : dist.getD v ⊤ ≤ dist.getD w ⊤ + entry g w a := by
            rw [← hav]
            exact hG.edge w hwn hpw a (hav ▸ hvn) he
          have h2 : dist.getD w ⊤ + entry g w a ≤ pathCost g q + entry g w a :=
            add_le_add_right hwle _
          rw [hcost]
          exact le_trans h1 h2
        | false =>
          left
          exact ⟨w, List.mem_append_left _ (mem_of_getLast?_eq hw), hpw,
            le_trans hwle hqle⟩

/-- The tentative distance of the vertex selected by `min_distance`
lower-bounds the cost of every path from the source to it. -/
theorem selected_opt {g : Matrix} {s : Nat} {dist : List EV} {proc : List Bool} {u : Nat}
    (hnn : Nonneg g) (hG : InvG g s dist proc) (hsrc : dist.getD s ⊤ ≤ 0)
    (hmin : ∀ w, w < g.length → proc.getD w false = false →
      dist.getD u ⊤ ≤ dist.getD w ⊤) :
    ∀ p, IsPath g g.length s u p → dist.getD u ⊤ ≤ pathCost g p := by
  intro p hp
  rcases path_bound hnn hG hsrc p u hp with ⟨z, hzp, hzf, hzle⟩ | hle
  · have hzn : z < g.length := hp.2.2.1 z hzp
    exact le_trans (hmin z hzn hzf) hzle
  · exact hle

/-- The structural invariant survives one loop iteration. -/
theorem invStep {g : Matrix} {s k u : Nat} {dist dist' : List EV} {proc : List Bool}
    (hs : s < g.length) (inv : Inv g s k dist proc)
    (hu : u < g.length) (hpu : proc.getD u false = false)
    (hlen' : dist'.length = g.length)
    (hpt : ∀ v, v < g.length → dist'.getD v ⊤ = relaxedAt g u (proc.set u true) dist v) :
    Inv g s (k + 1) dist' (proc.set u true) where
  lenD := hlen'
  lenP := by rw [length_set_eq]; exact inv.lenP
  cnt := by
    rw [count_true_set_true (by rw [inv.lenP]; exact hu) hpu, inv.cnt]
  sound := by
    intro v hv hne
    rw [hpt v hv] at hne ⊢
    rcases relaxedAt_cases g u (proc.set u true) dist v with heq | ⟨heq, hent, hut⟩
    · rw [heq] at hne ⊢
      exact inv.sound v hv hne
    · rw [heq]
      obtain ⟨p, hp, hc⟩ := inv.sound u hu hut
      exact ⟨p ++ [v], isPath_snoc_intro hp hent hv,
        by rw [pathCost_snoc hp.2.1 v, hc]⟩
  srcLe := by
    rw [hpt s hs]
    exact le_trans (relaxedAt_le g u (proc.set u true) dist s) inv.srcLe

/-- The greedy invariant survives one loop iteration when all weights are
non-negative and the selected vertex has minimal tentative distance among
the unprocessed ones. -/
theorem invGStep {g : Matrix} {s k u : Nat} {dist dist' : List EV} {proc : List Bool}
    (hnn : Nonneg g) (inv : Inv g s k dist proc) (hG : InvG g s dist proc)
    (hu : u < g.length) (hpu : proc.getD u false = false)
    (hmin : ∀ w, w < g.length → proc.getD w false = false →
      dist.getD u ⊤ ≤ dist.getD w ⊤)
    (hpt : ∀ v, v < g.length → dist'.getD v ⊤ = relaxedAt g u (proc.set u true) dist v) :
    InvG g s dist' (proc.set u true) := by
  have hulen : u < proc.length := by rw [inv.lenP]; exact hu
  have hput : (proc.set u true).getD u false = true := getD_set_self hulen true false
  have hsplit : ∀ v, (proc.set u true).getD v false = true →
      v = u ∨ proc.getD v false = true := by
    intro v hv
    by_cases hvu : v = u
    · exact Or.inl hvu
    · rw [getD_set_ne (fun h => hvu h.symm)] at hv
      exact Or.inr hv
  have hsplitf : ∀ v, (proc.set u true).getD v false = false →
      v ≠ u ∧ proc.getD v false = false := by
    intro v hv
    by_cases hvu : v = u
    · subst hvu
      rw [hput] at hv
      cases hv
    · rw [getD_set_ne (fun h => hvu h.symm)] at hv
      exact ⟨hvu, hv⟩
  have hfix : ∀ v, v < g.length → (proc.set u true).getD v false = true →
      dist'.getD v ⊤ = dist.getD v ⊤ := by
    intro v hv hpv
    rw [hpt v hv, relaxedAt_of_proc g u dist hpv]
  refine ⟨?_, ?_, ?_⟩
  · intro v hv hpv p hp
    rw [hfix v hv hpv]
    rcases hsplit v hpv with hvu | hold
    · subst hvu
      exact selected_opt hnn hG inv.srcLe hmin p hp
    · exact hG.opt v hv hold p hp
  · intro a ha hpa v hv he
    rw [hfix a ha hpa]
    cases hpv : (proc.set u true).getD v false with
    | false =>
      obtain ⟨hvu, hpvf⟩ := hsplitf v hpv
      rw [hpt v hv]
      rcases hsplit a hpa with hau | haold
      · subst hau
        exact relaxedAt_le_add hpv he
      · exact le_trans (relaxedAt_le g u (proc.set u true) dist v)
          (hG.edge a ha haold v hv he)
    | true =>
      rw [hfix v hv hpv]
      rcases hsplit v hpv with hvu | hvold
      · subst hvu
        rcases hsplit a hpa with hau | haold
        · subst hau
          exact le_add_of_nonneg_right (entry_nonneg hnn a a)
        · exact hG.edge a ha haold v hv he
      · rcases hsplit a hpa with hau | haold
        · subst hau
          exact le_trans (hG.mono v a hv ha hvold hpu)
            (le_add_of_nonneg_right (entry_nonneg hnn a v))
        · exact hG.edge a ha haold v hv he
  · intro a b ha hb hpa hpb
    obtain ⟨hbu, hpbf⟩ := hsplitf b hpb
    rw [hfix a ha hpa, hpt b hb]
    have hda : dist.getD a ⊤ ≤ dist.getD u ⊤ := by
      rcases hsplit a hpa with hau | haold
      · subst hau
        exact le_refl _
      · exact hG.mono a u ha hu haold hpu
    rcases relaxedAt_cases g u (proc.set u true) dist b with heq | ⟨heq, hent, _⟩
    · rw [heq]
      rcases hsplit a hpa with hau | haold
      · subst hau
        exact hmin b hb hpbf
      · exact hG.mono a b ha hb haold hpbf
    · rw [heq]
      exact le_trans hda (le_add_of_nonneg_right (entry_nonneg hnn u b))

/-- One iteration of the main loop succeeds and preserves both invariants
whenever some vertex is still unprocessed. -/
theorem loopStep_spec {g : Matrix} {s k : Nat} {dist : List EV} {proc : List Bool}
    (hsq : Square g) (hs : s < g.length)
    (inv : Inv g s k dist proc) (hk : k < g.length) :
    ∃ dist' proc', loopStep g g.length (dist, proc) = .ok (dist', proc') ∧
      Inv g s (k + 1) dist' proc' ∧
      (Nonneg g → InvG g s dist proc → InvG g s dist' proc') := by
  have hcand : ∃ v, v < g.length ∧ proc.getD v false = false := by
    obtain ⟨v, hv, hf⟩ := exists_false_of_count (l := proc)
      (by rw [inv.cnt, inv.lenP]; exact hk)
    exact ⟨v, by rw [← inv.lenP]; exact hv, hf⟩
  obtain ⟨u, hmd⟩ := min_distance_isSome dist hcand
  obtain ⟨hu, hpu, hminfull⟩ := min_distance_some hmd
  have hput : (proc.set u true).getD u false = true :=
    getD_set_self (by rw [inv.lenP]; exact hu) true false
  obtain ⟨l, hfold, hlen, hlt, _⟩ :=
    relax_fold_spec hsq hu hput inv.lenD g.length (le_refl _)
  refine ⟨l, proc.set u true, ?_, ?_, ?_⟩
  · unfold loopStep
    simp only [hmd]
    rw [hfold]
    rfl
  · exact invStep hs inv hu hpu hlen (fun v hv => hlt v hv)
  · intro hnn hG
    exact invGStep hnn inv hG hu hpu (fun w hw hpw => (hminfull w hw hpw).1)
      (fun v hv => hlt v hv)

/-- Running the main loop to completion from an invariant state. -/
theorem loop_spec {g : Matrix} {s : Nat} (hsq : Square g) (hs : s < g.length) :
    ∀ (l : List Nat) (k : Nat) (dist : List EV) (proc : List Bool),
      Inv g s k dist proc → (Nonneg g → InvG g s dist proc) →
      k + l.length = g.length - 1 →
      ∃ dist' proc',
        l.foldlM (fun st _ => loopStep g g.length st) (dist, proc) = .ok (dist', proc') ∧
        Inv g s (g.length - 1) dist' proc' ∧ (Nonneg g → InvG g s dist' proc') := by
  intro l
  induction l with
  | nil =>
    intro k dist proc hI hIG hk
    have hk' : k = g.length - 1 := by simpa using hk
    subst hk'
    exact ⟨dist, proc, rfl, hI, hIG⟩
  | cons x t ih =>
    intro k dist proc hI hIG hk
    simp only [List.length_cons] at hk
    have hkN : k < g.length := by omega
    obtain ⟨d1, p1, hstep, hI1, hIG1⟩ := loopStep_spec hsq hs hI hkN
    obtain ⟨d2, p2, hfold, hI2, hIG2⟩ :=
      ih (k + 1) d1 p1 hI1 (fun hnn => hIG1 hnn (hIG hnn)) (by omega)
    refine ⟨d2, p2, ?_, hI2, hIG2⟩
    rw [List.foldlM_cons, hstep]
    exact hfold

/-- The invariants hold after initialization (`dist[source] = 0`, all marks
false). -/
theorem invInit {g : Matrix} {s : Nat} (hs : s < g.length) :
    Inv g s 0 ((List.replicate g.length (⊤ : EV)).set s 0)
      (List.replicate g.length false) where
  lenD := by rw [length_set_eq, List.length_replicate]
  lenP := List.length_replicate _ _
  cnt := count_true_replicate_false _
  sound := by
    intro v hv hne
    by_cases hvs : v = s
    · subst hvs
      refine ⟨[v], isPath_refl hv, ?_⟩
      rw [getD_set_self (by rw [List.length_replicate]; exact hv)]
      rfl
    · exfalso
      apply hne
      rw [getD_set_ne (fun h => hvs h.symm), getD_replicate hv]
  srcLe := by
    rw [getD_set_self (by rw [List.length_replicate]; exact hs)]

theorem invGInit {g : Matrix} {s : Nat} :
    InvG g s ((List.replicate g.length (⊤ : EV)).set s 0)
      (List.replicate g.length false) := by
  refine ⟨?_, ?_, ?_⟩
  · intro v hv hpv
    rw [getD_replicate_self] at hpv
    cases hpv
  · intro a ha hpa
    rw [getD_replicate_self] at hpa
    cases hpa
  · intro a b ha hb hpa
    rw [getD_replicate_self] at hpa
    cases hpa

/-- Main characterization of a successful `from_vertex` run: for a square
matrix and a valid source the call never hits undefined behaviour and the
final state satisfies the invariants with `N - 1` processed vertices. -/
theorem from_vertexFull_spec {g : Matrix} {s : Nat} (hsq : Square g)
    (hs : s < g.length) :
    ∃ dist proc, (Dijkstra.make g).from_vertexFull (s : Int) = .ok (dist, proc) ∧
      Inv g s (g.length - 1) dist proc ∧ (Nonneg g → InvG g s dist proc) := by
  have hcond : (0 : Int) ≤ (s : Int) ∧ ((s : Int)).toNat < (Dijkstra.make g).size := by
    refine ⟨Int.natCast_nonneg s, ?_⟩
    show (s : Int).toNat < g.length
    rw [Int.toNat_natCast]
    exact hs
  obtain ⟨d', p', hfold, hI, hIG⟩ := loop_spec hsq hs (List.range (g.length - 1)) 0
    ((List.replicate g.length (⊤ : EV)).set s 0) (List.replicate g.length false)
    (invInit hs) (fun _ => invGInit) (by rw [List.length_range]; omega)
  refine ⟨d', p', ?_, hI, hIG⟩
  unfold Dijkstra.from_vertexFull
  rw [if_pos hcond]
  exact hfold

/-- After the full run on a non-negative square matrix, every vertex's final
distance lower-bounds the cost of every path from the source to it. -/
theorem final_lower_bound {g : Matrix} {s : Nat} {dist : List EV} {proc : List Bool}
    (hnn : Nonneg g) (hI : Inv g s (g.length - 1) dist proc) (hG : InvG g s dist proc) :
    ∀ v, v < g.length → ∀ p, IsPath g g.length s v p →
      dist.getD v ⊤ ≤ pathCost g p := by
  intro v hv p hp
  rcases path_bound hnn hG hI.srcLe p v hp with ⟨z, hzp, hzf, hzle⟩ | hle
  · have hzn : z < g.length := hp.2.2.1 z hzp
    cases hpv : proc.getD v false with
    | true => exact le_trans (hG.mono v z hv hzn hpv hzf) hzle
    | false =>
      have hlen1 : proc.length = proc.count true + 1 := by
        rw [hI.lenP, hI.cnt]
        omega
      have hvz : v = z := false_index_unique hlen1 (by rw [hI.lenP]; exact hv)
        (by rw [hI.lenP]; exact hzn) hpv hzf
      rw [hvz]
      exact hzle
  · exact hle

/-- The unchecked write `dist[source] = 0` faults for any source outside
`[0, size)`: the call ends in undefined behaviour, not in a reported error. -/
theorem from_vertex_ub {d : Dijkstra} {source : Int}
    (h : ¬ (0 ≤ source ∧ source.toNat < d.size)) :
    d.from_vertex source = .error .undefinedBehavior := by
  unfold Dijkstra.from_vertex Dijkstra.from_vertexFull
  rw [if_neg h]
  rfl

/-! ### The claims -/

/-- C1: for every square cost matrix whose edge weights are all non-negative
and all `s`, `v` in `[0, N)`, `from_vertex s` succeeds and its entry for `v`
equals the minimum over all paths from `s` to `v` (following only edges
whose matrix entry is nonzero) of the summed edge weights — it lower-bounds
every path cost, is attained by some path whenever a path exists, and is
the positive-infinity sentinel `⊤` when no path exists. -/
theorem C1_shortest_paths {g : Matrix} {s v : Nat}
    (hsq : Square g) (hnn : Nonneg g) (hs : s < g.length) (hv : v < g.length) :
    ∃ dv, (Dijkstra.make g).from_vertex (s : Int) = .ok dv ∧ dv.length = g.length ∧
      (∀ p, IsPath g g.length s v p → dv.getD v ⊤ ≤ pathCost g p) ∧
      ((∃ p, IsPath g g.length s v p) →
        ∃ p, IsPath g g.length s v p ∧ pathCost g p = dv.getD v ⊤) ∧
      ((¬ ∃ p, IsPath g g.length s v p) → dv.getD v ⊤ = ⊤) := by
  obtain ⟨dv, proc, hok, hI, hIG⟩ := from_vertexFull_spec hsq hs
  have hG := hIG hnn
  have hlow : ∀ p, IsPath g g.length s v p → dv.getD v ⊤ ≤ pathCost g p :=
    final_lower_bound hnn hI hG v hv
  refine ⟨dv, by rw [Dijkstra.from_vertex, hok]; rfl, hI.lenD, hlow, ?_, ?_⟩
  · rintro ⟨p0, hp0⟩
    by_cases ht : dv.getD v ⊤ = ⊤
    · refine ⟨p0, hp0, ?_⟩
      have := hlow p0 hp0
      rw [ht] at this ⊢
      exact top_le_iff.mp this
    · obtain ⟨p, hp, hc⟩ := hI.sound v hv ht
      exact ⟨p, hp, hc⟩
  · intro hnp
    by_contra ht
    obtain ⟨p, hp, _⟩ := hI.sound v hv ht
    exact hnp ⟨p, hp⟩

theorem C1_shortest_paths_witness :
    (Square [[(0 : EV), 1], [0, 0]] ∧ Nonneg [[(0 : EV), 1], [0, 0]] ∧
      (0 : Nat) < List.length [[(0 : EV), 1], [0, 0]] ∧
      (1 : Nat) < List.length [[(0 : EV), 1], [0, 0]]) ∧
    (∃ dv, (Dijkstra.make [[(0 : EV), 1], [0, 0]]).from_vertex ((0 : Nat) : Int) =
        .ok dv ∧ dv.length = List.length [[(0 : EV), 1], [0, 0]] ∧
      (∀ p, IsPath [[(0 : EV), 1], [0, 0]] (List.length [[(0 : EV), 1], [0, 0]]) 0 1 p →
        dv.getD 1 ⊤ ≤ pathCost [[(0 : EV), 1], [0, 0]] p) ∧
      ((∃ p, IsPath [[(0 : EV), 1], [0, 0]] (List.length [[(0 : EV), 1], [0, 0]]) 0 1 p) →
        ∃ p, IsPath [[(0 : EV), 1], [0, 0]] (List.length [[(0 : EV), 1], [0, 0]]) 0 1 p ∧
          pathCost [[(0 : EV), 1], [0, 0]] p = dv.getD 1 ⊤) ∧
      ((¬ ∃ p, IsPath [[(0 : EV), 1], [0, 0]] (List.length [[(0 : EV), 1], [0, 0]]) 0 1 p) →
        dv.getD 1 ⊤ = ⊤)) :=
  ⟨⟨by decide, by decide, by decide, by decide⟩,
    C1_shortest_paths (by decide) (by decide) (by decide) (by decide)⟩

/-- C2 (counterexample): on a 2×2 engine with the out-of-range source `2`,
the call does not fail with an OutOfRange condition — it performs the
unchecked out-of-bounds write `dist[source] = 0`, which is undefined
behaviour. -/
theorem C2_counterexample :
    (Dijkstra.make [[(1 : EV), 2], [3, 4]]).from_vertex 2 ≠ .error .outOfRange ∧
      (Dijkstra.make [[(1 : EV), 2], [3, 4]]).from_vertex 2 =
        .error .undefinedBehavior :=
  ⟨by decide, by decide⟩

/-- C2 (amended): `from_vertex` performs no range check on `source`; for
every engine and every source outside `[0, size)` the call hits the
out-of-bounds write `dist[source] = 0` — undefined behaviour — and no
OutOfRange condition is ever reported. -/
theorem C2_no_range_check (d : Dijkstra) (source : Int)
    (h : ¬ (0 ≤ source ∧ source.toNat < d.size)) :
    d.from_vertex source = .error .undefinedBehavior :=
  from_vertex_ub h

theorem C2_no_range_check_witness :
    (¬ ((0 : Int) ≤ 5 ∧ (5 : Int).toNat < (Dijkstra.make [[(1 : EV)]]).size)) ∧
      (Dijkstra.make [[(1 : EV)]]).from_vertex 5 = .error .undefinedBehavior :=
  ⟨by decide, C2_no_range_check (Dijkstra.make [[(1 : EV)]]) 5 (by decide)⟩

/-- C3 (counterexample): the 2-row matrix `[[0], [0, 0]]` is not square,
yet construction succeeds (recording `N = 2`) instead of failing with an
InvalidGraph condition. -/
theorem C3_counterexample :
    ¬ Square [[(0 : EV)], [0, 0]] ∧
      Dijkstra.tryMake [[(0 : EV)], [0, 0]] =
        .ok (Dijkstra.mk [[(0 : EV)], [0, 0]] 2) :=
  ⟨by decide, rfl⟩

/-- C3 (amended): construction performs no squareness validation — for
every matrix, square or not, it succeeds and records `N` as the matrix's
row count. -/
theorem C3_no_square_check (g : Matrix) :
    Dijkstra.tryMake g = .ok (Dijkstra.mk g g.length) :=
  rfl

/-- C4: when some vertex is unprocessed, `min_distance` returns an
unprocessed vertex of minimal tentative distance, and among the vertices
tied for that minimum it returns the highest-indexed one (the `<=` scan
updates the best-so-far on every tie, so the last one seen wins). -/
theorem C4_tie_break {size : Nat} {dist : List EV} {proc : List Bool}
    (hd : dist.length = size) (hp : proc.length = size)
    (hex : ∃ v, v < size ∧ proc.getD v false = false) :
    ∃ u, min_distance size dist proc = some u ∧ u < size ∧
      proc.getD u false = false ∧
      (∀ w, w < size → proc.getD w false = false →
        dist.getD u ⊤ ≤ dist.getD w ⊤) ∧
      (∀ w, w < size → proc.getD w false = false →
        dist.getD w ⊤ = dist.getD u ⊤ → w ≤ u) := by
  obtain ⟨u, hmd⟩ := min_distance_isSome dist hex
  obtain ⟨hu, hpu, hmin⟩ := min_distance_some hmd
  exact ⟨u, hmd, hu, hpu, fun w hw hpw => (hmin w hw hpw).1,
    fun w hw hpw heq => (hmin w hw hpw).2 heq⟩

theorem C4_tie_break_witness :
    ([(3 : EV), 3].length = 2 ∧ [false, false].length = 2 ∧
      ∃ v, v < 2 ∧ [false, false].getD v false = false) ∧
    (∃ u, min_distance 2 [(3 : EV), 3] [false, false] = some u ∧ u < 2 ∧
      [false, false].getD u false = false ∧
      (∀ w, w < 2 → [false, false].getD w false = false →
        [(3 : EV), 3].getD u ⊤ ≤ [(3 : EV), 3].getD w ⊤) ∧
      (∀ w, w < 2 → [false, false].getD w false = false →
        [(3 : EV), 3].getD w ⊤ = [(3 : EV), 3].getD u ⊤ → w ≤ u)) :=
  ⟨⟨by decide, by decide, by decide⟩,
    C4_tie_break (by decide) (by decide) (by decide)⟩

/-- C5: relaxation never passes through a zero matrix entry, so for every
square matrix (any weights) and valid source, a vertex with no path from
the source through nonzero entries keeps the positive-infinity sentinel in
the returned vector. -/
theorem C5_zero_means_no_edge {g : Matrix} {s v : Nat} (hsq : Square g)
    (hs : s < g.length) (hv : v < g.length)
    (hnp : ∀ p, ¬ IsPath g g.length s v p) :
    ∃ dv, (Dijkstra.make g).from_vertex (s : Int) = .ok dv ∧ dv.getD v ⊤ = ⊤ := by
  obtain ⟨dv, proc, hok, hI, _⟩ := from_vertexFull_spec hsq hs
  refine ⟨dv, by rw [Dijkstra.from_vertex, hok]; rfl, ?_⟩
  by_contra ht
  obtain ⟨p, hp, _⟩ := hI.sound v hv ht
  exact hnp p hp

theorem C5_zero_means_no_edge_witness :
    (Square [[(0 : EV), 0], [0, 0]] ∧
      (0 : Nat) < List.length [[(0 : EV), 0], [0, 0]] ∧
      (1 : Nat) < List.length [[(0 : EV), 0], [0, 0]] ∧
      ∀ p, ¬ IsPath [[(0 : EV), 0], [0, 0]]
        (List.length [[(0 : EV), 0], [0, 0]]) 0 1 p) ∧
    (∃ dv, (Dijkstra.make [[(0 : EV), 0], [0, 0]]).from_vertex ((0 : Nat) : Int) =
        .ok dv ∧ dv.getD 1 ⊤ = ⊤) := by
  have hzero : ∀ a b : Nat, entry [[(0 : EV), 0], [0, 0]] a b = 0 := by
    intro a b
    rcases a with _ | _ | a <;> rcases b with _ | _ | b <;> rfl
  have hnp : ∀ p, ¬ IsPath [[(0 : EV), 0], [0, 0]]
      (List.length [[(0 : EV), 0], [0, 0]]) 0 1 p := by
    intro p hp
    obtain ⟨h1, h2, _, h4⟩ := hp
    cases p with
    | nil => cases h1
    | cons a t =>
      cases t with
      | nil =>
        rw [List.head?_cons] at h1
        rw [List.getLast?_singleton] at h2
        cases h1
        cases h2
      | cons b t' =>
        exact (List.chain'_cons.mp h4).1 (hzero a b)
  exact ⟨⟨by decide, by decide, by decide, hnp⟩,
    C5_zero_means_no_edge (by decide) (by decide) (by decide) hnp⟩

/-- C6 (counterexample): on the engine built from the empty 0×0 matrix,
`from_vertex 0` does not return an empty vector without fault — it performs
the out-of-bounds write `dist[source] = 0` on an empty vector, which is
undefined behaviour. -/
theorem C6_counterexample :
    (Dijkstra.make ([] : Matrix)).from_vertex 0 = .error .undefinedBehavior :=
  by decide

/-- C6 (amended): an engine built from any 1×1 matrix returns `[0]` from
`from_vertex 0`; for the engine built from the empty 0×0 matrix every call
performs the out-of-bounds write `dist[source] = 0` (undefined behaviour)
rather than returning an empty vector. -/
theorem C6_boundary :
    (∀ c : EV, (Dijkstra.make [[c]]).from_vertex 0 = .ok [0]) ∧
      (∀ source : Int, (Dijkstra.make ([] : Matrix)).from_vertex source =
        .error .undefinedBehavior) := by
  refine ⟨fun c => rfl, fun source => from_vertex_ub ?_⟩
  rintro ⟨-, h2⟩
  revert h2
  show ¬ source.toNat < 0
  omega

/-- C7: for every square matrix with non-negative weights and every valid
source `s`, the returned vector's entry at index `s` is `0` — the source
distance is set to `0` at initialization and no relaxation improves it. -/
theorem C7_source_distance_zero {g : Matrix} {s : Nat} (hsq : Square g)
    (hnn : Nonneg g) (hs : s < g.length) :
    ∃ dv, (Dijkstra.make g).from_vertex (s : Int) = .ok dv ∧
      dv.length = g.length ∧ dv.getD s ⊤ = 0 := by
  obtain ⟨dv, proc, hok, hI, _⟩ := from_vertexFull_spec hsq hs
  refine ⟨dv, by rw [Dijkstra.from_vertex, hok]; rfl, hI.lenD, ?_⟩
  have hle : dv.getD s ⊤ ≤ 0 := hI.srcLe
  have hne : dv.getD s ⊤ ≠ ⊤ := by
    intro h
    rw [h] at hle
    simp at hle
  obtain ⟨p, hp, hc⟩ := hI.sound s hs hne
  have h0 : 0 ≤ pathCost g p := pathCost_nonneg hnn p
  rw [hc] at h0
  exact le_antisymm hle h0

theorem C7_source_distance_zero_witness :
    (Square [[(0 : EV), 1], [0, 0]] ∧ Nonneg [[(0 : EV), 1], [0, 0]] ∧
      (0 : Nat) < List.length [[(0 : EV), 1], [0, 0]]) ∧
    (∃ dv, (Dijkstra.make [[(0 : EV), 1], [0, 0]]).from_vertex ((0 : Nat) : Int) =
        .ok dv ∧ dv.length = List.length [[(0 : EV), 1], [0, 0]] ∧
      dv.getD 0 ⊤ = 0) :=
  ⟨⟨by decide, by decide, by decide⟩,
    C7_source_distance_zero (by decide) (by decide) (by decide)⟩

/-- C8: the method body of `from_vertex` assigns no data member, so the
engine (matrix and `N`) is unchanged by the call, and a second call on the
post-call engine returns an identical result. -/
theorem C8_no_state_mutation (d : Dijkstra) (source : Int) :
    (d.from_vertexCall source).2 = d ∧
      (d.from_vertexCall source).1 =
        ((d.from_vertexCall source).2.from_vertexCall source).1 :=
  ⟨rfl, rfl⟩

/-- C9: on the 4×4 demonstration matrix with negative weights, the
reference output `[0, -1, -2, 0]` is reproduced exactly from source `0`. -/
theorem C9_regression_fixture :
    (Dijkstra.make
        [[0, ⊤, ((-2 : ℤ) : EV), ⊤],
         [((4 : ℤ) : EV), 0, ((3 : ℤ) : EV), ⊤],
         [⊤, ⊤, 0, ((2 : ℤ) : EV)],
         [⊤, ((-1 : ℤ) : EV), ⊤, 0]]).from_vertex 0 =
      .ok [0, ((-1 : ℤ) : EV), ((-2 : ℤ) : EV), 0] :=
  by decide

/-- C10: for every square matrix with `N ≥ 1` and every valid source, the
whole run succeeds — in each of the `N - 1` iterations `min_distance` finds
an unprocessed vertex (so the branch returning an unset `min_index` is
unreachable) — and exactly `N - 1` vertices end up marked processed. -/
theorem C10_selection_safety {g : Matrix} {s : Nat} (hsq : Square g)
    (hn : 1 ≤ g.length) (hs : s < g.length) :
    ∃ dv proc, (Dijkstra.make g).from_vertexFull (s : Int) = .ok (dv, proc) ∧
      proc.length = g.length ∧ proc.count true = g.length - 1 := by
  obtain ⟨dv, proc, hok, hI, _⟩ := from_vertexFull_spec hsq hs
  exact ⟨dv, proc, hok, hI.lenP, hI.cnt⟩

theorem C10_selection_safety_witness :
    (Square [[(0 : EV), 1], [0, 0]] ∧ 1 ≤ List.length [[(0 : EV), 1], [0, 0]] ∧
      (0 : Nat) < List.length [[(0 : EV), 1], [0, 0]]) ∧
    (∃ dv proc, (Dijkstra.make [[(0 : EV), 1], [0, 0]]).from_vertexFull
        ((0 : Nat) : Int) = .ok (dv, proc) ∧
      proc.length = List.length [[(0 : EV), 1], [0, 0]] ∧
      proc.count true = List.length [[(0 : EV), 1], [0, 0]] - 1) :=
  ⟨⟨by decide, by decide, by decide⟩,
    C10_selection_safety (by decide) (by decide) (by decide)⟩

end ATria
